import Mathlib

/-!
Verification of nneslib (node/edge significance library) against its
natural-language specification.

The graph primitives (adjacency, degree, shortest paths, cliques,
Laplacian spectrum, eigen-decomposition) are external collaborators in the
specification; they are modelled as oracle inputs constrained by explicit
validity hypotheses.  Python floats are modelled as rationals; Python
exceptions are modelled with `Except`; Python dict keys are modelled by a
value type in which lists are unhashable.
-/

namespace Nneslib

/-- A graph as the algorithms see it: a node list, an edge list, and an
adjacency predicate.  Coherence between the three fields is assumed in
theorem hypotheses where needed. -/
structure Graph where
  nodes : List ℕ
  edges : List (ℕ × ℕ)
  adj : ℕ → ℕ → Bool

/-- `graph.neighbors(u)`: nodes adjacent to `u`. -/
def Graph.neighbors (g : Graph) (u : ℕ) : List ℕ :=
  g.nodes.filter (fun w => g.adj u w)

/-- `graph.has_edge(u, v)`. -/
def Graph.hasEdge (g : Graph) (u v : ℕ) : Bool := g.adj u v

/-- Python exception kinds observed by the library. -/
inductive PyErr where
  | typeError
  | keyError
  | nodeNotFound
  | zeroDivisionError
  | computationError
  | indexError
  deriving DecidableEq, Repr

/-- Python values usable as dict keys in the edge-significance code:
ints, 2-tuples of ints, and lists of ints.  Only the last is unhashable. -/
inductive PyVal where
  | int : ℤ → PyVal
  | pair : ℤ → ℤ → PyVal
  | list : List ℤ → PyVal
  deriving DecidableEq, Repr

/-- Python hashability: a `list` raises `TypeError` when used as a dict key. -/
def PyVal.hashable : PyVal → Bool
  | .list _ => false
  | _ => true

/-- `d[k] = v` on a Python dict: hashes the key (raising `TypeError` for an
unhashable key such as a list) and stores the binding, replacing any
previous binding for the key. -/
def dictInsert {α : Type} (d : List (PyVal × α)) (k : PyVal) (v : α) :
    Except PyErr (List (PyVal × α)) :=
  if k.hashable then
    if (d.map Prod.fst).contains k then
      .ok (d.map (fun kv => if kv.1 = k then (k, v) else kv))
    else
      .ok (d ++ [(k, v)])
  else
    .error .typeError

/-! ### Edge diffusion importance (src/nneslib/edge/edge_significance.py, lines 103-109) -/

/-- `n_uv = len([node for node in u_neighbors if graph.has_edge(v, node) and node != v])`. -/
def n_uv (g : Graph) (u v : ℕ) : ℕ :=
  ((g.neighbors u).filter (fun node => g.hasEdge v node && node ≠ v)).length

/-- The per-edge diffusion-importance score `(n_uv + n_vu) / 2`
(Python float division, modelled in ℚ). -/
def diffusionScore (g : Graph) (u v : ℕ) : ℚ :=
  ((n_uv g u v : ℚ) + (n_uv g v u : ℚ)) / 2

/-- Common neighbours of `u` and `v`, excluding `u` and `v` themselves:
the triangle count on the edge `(u, v)`. -/
def commonNeighborCount (g : Graph) (u v : ℕ) : ℕ :=
  (g.nodes.filter (fun w => g.adj u w && g.adj v w && w ≠ u && w ≠ v)).length

/-- The library's loopless convention: no node of the graph is adjacent to
itself (no self-loops). -/
abbrev Graph.Irrefl (g : Graph) : Prop := ∀ w ∈ g.nodes, g.adj w w = false

/-- Undirectedness of the adjacency predicate on the graph's nodes. -/
abbrev Graph.Symm (g : Graph) : Prop := ∀ a ∈ g.nodes, ∀ b ∈ g.nodes, g.adj a b = g.adj b a

theorem n_uv_eq_common (g : Graph) (hirr : g.Irrefl) (u v : ℕ) :
    n_uv g u v = commonNeighborCount g u v := by
  unfold n_uv commonNeighborCount Graph.neighbors Graph.hasEdge
  rw [List.filter_filter]
  congr 1
  apply List.filter_congr
  intro w hw
  by_cases huw : g.adj u w = true
  · have hwu : w ≠ u := by
      intro h; subst h; rw [hirr w hw] at huw; exact Bool.false_ne_true huw
    by_cases hvw : g.adj v w = true
    · have hwv : w ≠ v := by
        intro h; subst h; rw [hirr w hw] at hvw; exact Bool.false_ne_true hvw
      simp [huw, hvw, hwu, hwv]
    · simp [huw, Bool.eq_false_iff.mpr hvw]
  · simp [Bool.eq_false_iff.mpr huw]

theorem commonNeighborCount_comm (g : Graph) (u v : ℕ) :
    commonNeighborCount g v u = commonNeighborCount g u v := by
  unfold commonNeighborCount
  congr 1
  apply List.filter_congr
  intro w _
  cases h1 : g.adj u w <;> cases h2 : g.adj v w <;>
    simp [h1, h2, Bool.and_comm, Bool.and_left_comm, Bool.and_assoc]

/-- C1: for every edge (u, v) of an undirected loopless graph, the per-edge
score computed by `diffusion_importance` equals the number of common
neighbours of u and v (the triangle count on that edge), and the two
directional counts `n_uv` and `n_vu` averaged by the implementation both
equal this common-neighbour count. -/
theorem diffusion_importance_eq_triangle_count (g : Graph)
    (hirr : g.Irrefl) (hsym : g.Symm) (u v : ℕ) (hedge : (u, v) ∈ g.edges) :
    diffusionScore g u v = (commonNeighborCount g u v : ℚ) ∧
    n_uv g u v = commonNeighborCount g u v ∧
    n_uv g v u = commonNeighborCount g u v := by
  have h1 : n_uv g u v = commonNeighborCount g u v := n_uv_eq_common g hirr u v
  have h2 : n_uv g v u = commonNeighborCount g u v := by
    rw [n_uv_eq_common g hirr v u, commonNeighborCount_comm]
  refine ⟨?_, h1, h2⟩
  unfold diffusionScore
  rw [h1, h2]
  ring

/-- The triangle graph on nodes 0, 1, 2: a concrete undirected test graph. -/
def triangleGraph : Graph where
  nodes := [0, 1, 2]
  edges := [(0, 1), (0, 2), (1, 2)]
  adj := fun a b =>
    ((a, b) ∈ ([(0, 1), (1, 0), (0, 2), (2, 0), (1, 2), (2, 1)] : List (ℕ × ℕ)) : Bool)

theorem diffusion_importance_eq_triangle_count_witness :
    (diffusionScore triangleGraph 0 1 = (commonNeighborCount triangleGraph 0 1 : ℚ) ∧
      n_uv triangleGraph 0 1 = commonNeighborCount triangleGraph 0 1 ∧
      n_uv triangleGraph 1 0 = commonNeighborCount triangleGraph 0 1) ∧
    commonNeighborCount triangleGraph 0 1 = 1 :=
  ⟨diffusion_importance_eq_triangle_count triangleGraph
    (by decide) (by decide) 0 1 (by decide), by decide⟩

/-! ### The three list-keyed edge entry points
(src/nneslib/edge/edge_significance.py: degree_product, diffusion_importance,
brightness).  Each builds its significance dict with the two-element list
`[u, v]` as the key. -/

/-- `degree_product`: folds over the edges building the significance dict with
key `[u, v]` and value `(degree(u) * degree(v)) ** theta`.  The degree query is
the graph collaborator's, supplied as an oracle. -/
def degree_product (g : Graph) (degree : ℕ → ℚ) (theta : ℕ) :
    Except PyErr (List (PyVal × ℚ)) :=
  g.edges.foldlM
    (fun d e => dictInsert d (.list [(e.1 : ℤ), (e.2 : ℤ)]) ((degree e.1 * degree e.2) ^ theta))
    []

/-- `diffusion_importance`: folds over the edges building the significance dict
with key `[u, v]` and value `(n_uv + n_vu)/2`. -/
def diffusion_importance (g : Graph) : Except PyErr (List (PyVal × ℚ)) :=
  g.edges.foldlM
    (fun d e => dictInsert d (.list [(e.1 : ℤ), (e.2 : ℤ)]) (diffusionScore g e.1 e.2))
    []

/-- The clique scan of `brightness` for one edge `(u, v)`: walk the
descending-size clique list once; break as soon as `s_u * s_v * s_e != 0`;
record the first clique containing `u`, the first containing `v`, and the
first containing both. -/
def cliqueScan (u v : ℕ) (su sv se : ℕ) : List (List ℕ) → ℕ × ℕ × ℕ
  | [] => (su, sv, se)
  | c :: rest =>
    if su * sv * se ≠ 0 then (su, sv, se)
    else
      let su' := if u ∈ c ∧ su = 0 then c.length else su
      let sv' := if v ∈ c ∧ sv = 0 then c.length else sv
      let se' := if u ∈ c ∧ se = 0 ∧ v ∈ c then c.length else se
      cliqueScan u v su' sv' se' rest

/-- A numpy float as produced by `np.sqrt(s_u * s_v) / s_e`: either `nan`,
`inf`, or the exact value `√a / b` kept symbolically as the pair `(a, b)`. -/
inductive NpVal where
  | nan : NpVal
  | inf : NpVal
  | val : ℕ → ℕ → NpVal
  deriving DecidableEq, Repr

/-- `np.sqrt(a) / b` under numpy float semantics: dividing by zero does not
raise; it yields `inf` (positive numerator) or `nan` (0/0), with a runtime
warning only. -/
def npSqrtDiv (a b : ℕ) : NpVal :=
  if b = 0 then (if a = 0 then .nan else .inf) else .val a b

/-- The per-edge brightness value: scan the sorted clique list, then compute
`np.sqrt(s_u * s_v) / s_e`. -/
def brightnessEdgeValue (cliques : List (List ℕ)) (u v : ℕ) : NpVal :=
  let s := cliqueScan u v 0 0 0 cliques
  npSqrtDiv (s.1 * s.2.1) s.2.2

/-- `brightness`: folds over the edges, storing each per-edge value under the
list key `[u, v]`.  The clique list (descending size) comes from the graph
collaborator's maximal-clique enumeration. -/
def brightness (g : Graph) (cliques : List (List ℕ)) :
    Except PyErr (List (PyVal × NpVal)) :=
  g.edges.foldlM
    (fun d e => dictInsert d (.list [(e.1 : ℤ), (e.2 : ℤ)]) (brightnessEdgeValue cliques e.1 e.2))
    []

/-- C2: on every graph with at least one edge, each of `degree_product`,
`diffusion_importance` and `brightness` fails with a `TypeError` before
returning, because it uses a two-element list — an unhashable value — as the
key when building the significance mapping; none of the three ever constructs
an EdgeSignificance result. -/
theorem edge_entry_points_typeError (g : Graph) (degree : ℕ → ℚ) (theta : ℕ)
    (cliques : List (List ℕ)) (hne : g.edges ≠ []) :
    degree_product g degree theta = .error .typeError ∧
    diffusion_importance g = .error .typeError ∧
    brightness g cliques = .error .typeError := by
  obtain ⟨e, rest, hrep⟩ : ∃ e rest, g.edges = e :: rest := by
    cases h : g.edges with
    | nil => exact absurd h hne
    | cons e rest => exact ⟨e, rest, rfl⟩
  refine ⟨?_, ?_, ?_⟩ <;>
    simp [degree_product, diffusion_importance, brightness, hrep,
      List.foldlM, dictInsert, PyVal.hashable, Bind.bind, Except.bind]

theorem edge_entry_points_typeError_witness :
    degree_product triangleGraph (fun _ => 2) 1 = .error .typeError ∧
    diffusion_importance triangleGraph = .error .typeError ∧
    brightness triangleGraph [[0, 1, 2]] = .error .typeError :=
  edge_entry_points_typeError triangleGraph (fun _ => 2) 1 [[0, 1, 2]] (by decide)

/-! ### Significance result model
(src/nneslib/classes/significance.py, node_significance.py,
edge_significance.py) -/

/-- A NodeSignificance result object: the base `Significance` fields (mapping,
graph reference — here its node list —, method name) plus node keys. -/
structure NodeSigResult where
  significance : List (ℕ × ℚ)
  graphNodes : List ℕ
  methodName : String
  deriving DecidableEq, Repr

/-- `NodeSignificance.__init__`: stores the fields verbatim; the body performs
no validation of the mapping's keys, so construction never fails. -/
def NodeSignificance.init (sig : List (ℕ × ℚ)) (graphNodes : List ℕ)
    (name : String) : Except PyErr NodeSigResult :=
  .ok ⟨sig, graphNodes, name⟩

/-- `NodeSignificance.get`: translated verbatim —
`if node in self.significance.keys(): raise nx.NodeNotFound(...)` followed by
`return self.significance[node]` (a plain dict subscript, which raises
`KeyError` when the key is absent). -/
def NodeSignificance.get (r : NodeSigResult) (node : ℕ) : Except PyErr ℚ :=
  if node ∈ r.significance.map Prod.fst then .error .nodeNotFound
  else
    match r.significance.lookup node with
    | some v => .ok v
    | none => .error .keyError

/-- C3: `NodeSignificance.get` has its membership test inverted: on a result
whose mapping stores node 1 with score 1/2, `get 1` raises `NodeNotFound`
instead of returning the stored score, and `get 2` (a genuinely absent node)
raises a bare `KeyError` instead of the documented entity-not-found error. -/
theorem nodeSignificance_get_inverted :
    NodeSignificance.get ⟨[(1, 1/2)], [1, 2], "test"⟩ 1 = .error .nodeNotFound ∧
    NodeSignificance.get ⟨[(1, 1/2)], [1, 2], "test"⟩ 2 = .error .keyError := by
  constructor <;> rfl

/-- `vertices_dict = {key: index for index, key in enumerate(vertices_list)}`
followed by `vertices_dict[u]`: the index of a node in the node list, `none`
(a `KeyError` at lookup) when absent. -/
def verticesIndex : List ℕ → ℕ → Option ℕ
  | [], _ => none
  | n :: rest, u => if u = n then some 0 else (verticesIndex rest u).map (· + 1)

theorem verticesIndex_eq_none_iff (nodes : List ℕ) (u : ℕ) :
    verticesIndex nodes u = none ↔ u ∉ nodes := by
  induction nodes with
  | nil => simp [verticesIndex]
  | cons n rest ih =>
    by_cases h : u = n
    · simp [verticesIndex, h]
    · simp [verticesIndex, h, ih]

/-- `significance_matrix[i][j] = s` on the dense numpy score matrix, modelled
as a pointwise function update. -/
def matUpdate (M : ℕ → ℕ → ℚ) (i j : ℕ) (s : ℚ) : ℕ → ℕ → ℚ :=
  fun a b => if a = i ∧ b = j then s else M a b

/-- The loop body of `EdgeSignificance._get_numpy_significance_matrix`: for
each `(edge, significance)` item look both endpoints up in `vertices_dict`
(raising `KeyError` when absent), write `M[source][target]`, and for an
undirected graph also write `M[target][source]`. -/
def buildMatrix (nodes : List ℕ) (directed : Bool) :
    List ((ℕ × ℕ) × ℚ) → (ℕ → ℕ → ℚ) → Except PyErr (ℕ → ℕ → ℚ)
  | [], M => .ok M
  | kv :: rest, M =>
    match verticesIndex nodes kv.1.1, verticesIndex nodes kv.1.2 with
    | some i, some j =>
      let M1 := matUpdate M i j kv.2
      buildMatrix nodes directed rest (if directed then M1 else matUpdate M1 j i kv.2)
    | _, _ => .error .keyError

/-- `EdgeSignificance._get_numpy_significance_matrix`, starting from
`np.zeros((n, n))`. -/
def getNumpySignificanceMatrix (nodes : List ℕ) (sig : List ((ℕ × ℕ) × ℚ))
    (directed : Bool) : Except PyErr (ℕ → ℕ → ℚ) :=
  buildMatrix nodes directed sig (fun _ _ => 0)

/-- C8 counterexample: constructing a node significance result whose mapping
key 5 is not a node of the supplied graph succeeds — no validation happens at
construction time, contradicting the claim that every Significance result
validates its keys and fails fast. -/
theorem significance_init_no_validation_counterexample :
    NodeSignificance.init [(5, 1)] [1, 2] "test" = .ok ⟨[(5, 1)], [1, 2], "test"⟩ ∧
    (5 : ℕ) ∉ ([1, 2] : List ℕ) := by
  constructor
  · rfl
  · decide

theorem buildMatrix_error_iff (nodes : List ℕ) (directed : Bool) :
    ∀ (sig : List ((ℕ × ℕ) × ℚ)) (M₀ : ℕ → ℕ → ℚ),
      buildMatrix nodes directed sig M₀ = .error .keyError ↔
        ∃ kv ∈ sig, kv.1.1 ∉ nodes ∨ kv.1.2 ∉ nodes := by
  intro sig
  induction sig with
  | nil => intro M₀; simp [buildMatrix]
  | cons kv rest ih =>
    intro M₀
    by_cases h1 : kv.1.1 ∈ nodes
    · by_cases h2 : kv.1.2 ∈ nodes
      · obtain ⟨i, hi⟩ : ∃ i, verticesIndex nodes kv.1.1 = some i := by
          cases hv : verticesIndex nodes kv.1.1 with
          | none => exact absurd ((verticesIndex_eq_none_iff nodes kv.1.1).mp hv) (by simp [h1])
          | some i => exact ⟨i, rfl⟩
        obtain ⟨j, hj⟩ : ∃ j, verticesIndex nodes kv.1.2 = some j := by
          cases hv : verticesIndex nodes kv.1.2 with
          | none => exact absurd ((verticesIndex_eq_none_iff nodes kv.1.2).mp hv) (by simp [h2])
          | some j => exact ⟨j, rfl⟩
        simp only [buildMatrix, hi, hj]
        rw [ih]
        simp [h1, h2]
      · have hv : verticesIndex nodes kv.1.2 = none :=
          (verticesIndex_eq_none_iff nodes kv.1.2).mpr h2
        simp only [buildMatrix, hv]
        constructor
        · intro _; exact ⟨kv, List.mem_cons_self _ _, Or.inr h2⟩
        · intro _
          cases hv1 : verticesIndex nodes kv.1.1 <;> rfl
    · have hv : verticesIndex nodes kv.1.1 = none :=
        (verticesIndex_eq_none_iff nodes kv.1.1).mpr h1
      simp only [buildMatrix, hv]
      exact ⟨fun _ => ⟨kv, List.mem_cons_self _ _, Or.inl h1⟩, fun _ => trivial⟩

/-- C8 amended: NodeSignificance construction performs no key validation and
always succeeds, even with keys absent from the graph; EdgeSignificance
construction fails at construction time — via the `KeyError` raised by the
node-index lookup while building the dense matrix, not via a dedicated
validation — exactly when some mapping key has an endpoint that is not a node
of the graph (it does not check that the pair is an actual edge). -/
theorem significance_init_validation_amended (nodes : List ℕ)
    (sig : List ((ℕ × ℕ) × ℚ)) (directed : Bool) :
    (∀ nsig gnodes name, NodeSignificance.init nsig gnodes name = .ok ⟨nsig, gnodes, name⟩) ∧
    (getNumpySignificanceMatrix nodes sig directed = .error .keyError ↔
      ∃ kv ∈ sig, kv.1.1 ∉ nodes ∨ kv.1.2 ∉ nodes) := by
  constructor
  · intro _ _ _; rfl
  · exact buildMatrix_error_iff nodes directed sig _

theorem significance_init_validation_amended_witness :
    (∀ nsig gnodes name, NodeSignificance.init nsig gnodes name = .ok ⟨nsig, gnodes, name⟩) ∧
    (getNumpySignificanceMatrix [1, 2] [((5, 1), 1)] false = .error .keyError ↔
      ∃ kv ∈ [((5, 1), (1 : ℚ))], kv.1.1 ∉ ([1, 2] : List ℕ) ∨ kv.1.2 ∉ ([1, 2] : List ℕ)) :=
  significance_init_validation_amended [1, 2] [((5, 1), 1)] false

theorem matUpdate_pair_symm (M : ℕ → ℕ → ℚ) (hM : ∀ a b, M a b = M b a)
    (i j : ℕ) (s : ℚ) :
    ∀ a b, matUpdate (matUpdate M i j s) j i s a b
      = matUpdate (matUpdate M i j s) j i s b a := by
  intro a b
  unfold matUpdate
  by_cases haj : a = j <;> by_cases hbi : b = i <;>
    by_cases hai : a = i <;> by_cases hbj : b = j <;>
      simp_all

theorem buildMatrix_symm (nodes : List ℕ) :
    ∀ (sig : List ((ℕ × ℕ) × ℚ)) (M₀ M : ℕ → ℕ → ℚ),
      buildMatrix nodes false sig M₀ = .ok M →
      (∀ a b, M₀ a b = M₀ b a) → ∀ a b, M a b = M b a := by
  intro sig
  induction sig with
  | nil =>
    intro M₀ M h hsym
    simp only [buildMatrix] at h
    cases h
    exact hsym
  | cons kv rest ih =>
    intro M₀ M h hsym
    cases hi : verticesIndex nodes kv.1.1 with
    | none =>
      rw [buildMatrix, hi] at h
      exact Except.noConfusion h
    | some i =>
      cases hj : verticesIndex nodes kv.1.2 with
      | none =>
        rw [buildMatrix, hi, hj] at h
        exact Except.noConfusion h
      | some j =>
        simp only [buildMatrix, hi, hj, if_neg (by simp : ¬(false = true))] at h
        exact ih _ M h (matUpdate_pair_symm M₀ hsym i j kv.2)

theorem buildMatrix_untouched (nodes : List ℕ) :
    ∀ (sig : List ((ℕ × ℕ) × ℚ)) (M₀ M : ℕ → ℕ → ℚ),
      buildMatrix nodes false sig M₀ = .ok M →
      ∀ a b, (∀ kv ∈ sig,
          ¬(verticesIndex nodes kv.1.1 = some a ∧ verticesIndex nodes kv.1.2 = some b) ∧
          ¬(verticesIndex nodes kv.1.1 = some b ∧ verticesIndex nodes kv.1.2 = some a)) →
        M a b = M₀ a b := by
  intro sig
  induction sig with
  | nil =>
    intro M₀ M h a b _
    simp only [buildMatrix] at h
    cases h
    rfl
  | cons kv rest ih =>
    intro M₀ M h a b huntouched
    cases hi : verticesIndex nodes kv.1.1 with
    | none =>
      rw [buildMatrix, hi] at h
      exact Except.noConfusion h
    | some i =>
      cases hj : verticesIndex nodes kv.1.2 with
      | none =>
        rw [buildMatrix, hi, hj] at h
        exact Except.noConfusion h
      | some j =>
        simp only [buildMatrix, hi, hj, if_neg (by simp : ¬(false = true))] at h
        have hrest := ih _ M h a b (fun kv' hkv' => huntouched kv' (List.mem_cons_of_mem _ hkv'))
        have hkv := huntouched kv (List.mem_cons_self _ _)
        rw [hrest]
        unfold matUpdate
        have h1 : ¬(a = i ∧ b = j) := by
          rintro ⟨rfl, rfl⟩; exact hkv.1 ⟨hi, hj⟩
        have h2 : ¬(a = j ∧ b = i) := by
          rintro ⟨rfl, rfl⟩; exact hkv.2 ⟨hi, hj⟩
        simp [h1, h2]

/-- C10: for an EdgeSignificance result built over an undirected graph, the
dense score matrix constructed at creation time is symmetric
(`M[i][j] == M[j][i]` for all indices), and every entry not written for some
mapping key — in either orientation — is 0.0. -/
theorem edge_significance_matrix_symmetric (nodes : List ℕ)
    (sig : List ((ℕ × ℕ) × ℚ)) (M : ℕ → ℕ → ℚ)
    (h : getNumpySignificanceMatrix nodes sig false = .ok M) :
    (∀ i j, M i j = M j i) ∧
    (∀ i j, (∀ kv ∈ sig,
        ¬(verticesIndex nodes kv.1.1 = some i ∧ verticesIndex nodes kv.1.2 = some j) ∧
        ¬(verticesIndex nodes kv.1.1 = some j ∧ verticesIndex nodes kv.1.2 = some i)) →
      M i j = 0) :=
  ⟨buildMatrix_symm nodes sig _ M h (fun _ _ => rfl),
   fun i j huntouched => buildMatrix_untouched nodes sig _ M h i j huntouched⟩

theorem edge_significance_matrix_symmetric_witness :
    ∃ M, getNumpySignificanceMatrix [0, 1, 2] [((0, 1), 3)] false = .ok M ∧
      ((∀ i j, M i j = M j i) ∧ M 0 1 = 3 ∧ M 1 0 = 3 ∧ M 2 2 = 0) := by
  refine ⟨_, rfl, ?_⟩
  have h := edge_significance_matrix_symmetric [0, 1, 2] [((0, 1), 3)] _ rfl
  exact ⟨h.1, by rfl, by rfl, h.2 2 2 (by decide)⟩

/-- Storing any value under the two-element list key `[u, v]` fails with
`TypeError` at the first edge. -/
theorem listKey_store_typeError {α : Type} (edges : List (ℕ × ℕ)) (f : ℕ × ℕ → α)
    (hne : edges ≠ []) :
    edges.foldlM (fun d e => dictInsert d (.list [(e.1 : ℤ), (e.2 : ℤ)]) (f e))
      ([] : List (PyVal × α)) = .error .typeError := by
  cases edges with
  | nil => exact absurd rfl hne
  | cons e rest =>
    simp [List.foldlM, dictInsert, PyVal.hashable, Bind.bind, Except.bind]

/-- A single-edge graph on nodes 0 and 1. -/
def oneEdgeGraph : Graph where
  nodes := [0, 1]
  edges := [(0, 1)]
  adj := fun a b => ((a, b) ∈ ([(0, 1), (1, 0)] : List (ℕ × ℕ)) : Bool)

/-- C9 counterexample: with a clique enumeration inconsistent with the edge
set (no clique contains both endpoints of the edge (0, 1)), the scan ends with
`S_e == 0`, yet the per-edge computation produces the value `inf` by float
division by zero instead of failing, and the entry point then fails with
`TypeError` (the unhashable list key) — not with the claimed
`ComputationError`. -/
theorem brightness_computationError_counterexample :
    (cliqueScan 0 1 0 0 0 [[0], [1]]).2.2 = 0 ∧
    brightnessEdgeValue [[0], [1]] 0 1 = .inf ∧
    brightness oneEdgeGraph [[0], [1]] = .error .typeError ∧
    PyErr.typeError ≠ PyErr.computationError := by
  refine ⟨by decide, by decide, ?_, by decide⟩
  rfl

/-- C9 amended: when the clique scan for an edge (u, v) ends with `S_e == 0`,
`brightness` does not fail with a `ComputationError`: the per-edge score is
computed by numpy float division by zero, yielding `nan` or `inf` without
raising, and the function then fails with `TypeError` on the unhashable
list key — as it does for every edge of every nonempty graph. -/
theorem brightness_se_zero_amended (g : Graph) (cliques : List (List ℕ)) (u v : ℕ)
    (hse : (cliqueScan u v 0 0 0 cliques).2.2 = 0) (hne : g.edges ≠ []) :
    (brightnessEdgeValue cliques u v = .nan ∨ brightnessEdgeValue cliques u v = .inf) ∧
    brightness g cliques = .error .typeError ∧
    brightness g cliques ≠ .error .computationError := by
  have hb : brightness g cliques = .error .typeError :=
    listKey_store_typeError g.edges (fun e => brightnessEdgeValue cliques e.1 e.2) hne
  refine ⟨?_, hb, by rw [hb]; simp⟩
  unfold brightnessEdgeValue npSqrtDiv
  simp only [hse, if_pos rfl]
  by_cases hz : (cliqueScan u v 0 0 0 cliques).1 * (cliqueScan u v 0 0 0 cliques).2.1 = 0
  · left; simp [hz]
  · right; simp [hz]

theorem brightness_se_zero_amended_witness :
    (brightnessEdgeValue [[0], [1]] 0 1 = .nan ∨
      brightnessEdgeValue [[0], [1]] 0 1 = .inf) ∧
    brightness oneEdgeGraph [[0], [1]] = .error .typeError ∧
    brightness oneEdgeGraph [[0], [1]] ≠ .error .computationError :=
  brightness_se_zero_amended oneEdgeGraph [[0], [1]] 0 1 (by decide) (by decide)

/-! ### Community-structure significance index
(src/nneslib/evaluation/community_structure.py) -/

/-- The `1e-7` guard added to `|β̄ − β_j|` to prevent division by zero. -/
def epsGuard : ℚ := 1 / 10000000

/-- `significance_index`, translated from the source: `n` is the node count,
`degrees` the (weighted) degree list from `graph.degree`, `eigenvalues` the
ascending Laplacian spectrum from the graph collaborator.
`k = np.mean(degrees)`, `beta = np.mean(eigenvalues[1:c])`,
`amplification = Σ 1/(|beta − ev| + 1e-7)` over `eigenvalues[c:]`,
result `H = n / (k * amplification)`. -/
def significance_index (n : ℕ) (degrees : List ℚ) (eigenvalues : List ℚ)
    (c : ℕ) : ℚ :=
  let k : ℚ := degrees.sum / (degrees.length : ℚ)
  let sliced : List ℚ := (eigenvalues.drop 1).take (c - 1)
  let beta : ℚ := sliced.sum / (sliced.length : ℚ)
  let amp : ℚ := ((eigenvalues.drop c).map (fun ev => 1 / (|beta - ev| + epsGuard))).sum
  (n : ℚ) / (k * amp)

/-- The specification's formula for the significance index, written with
explicit eigenvalue indices: `β̄` is the mean of `β_1 … β_{c-1}`,
`amplification = Σ_{j=c}^{n-1} 1/(|β̄ − β_j| + 1e-7)`, `k̄` the mean degree,
and `H = n / (k̄ · amplification)`. -/
def significance_index_spec (n : ℕ) (degrees : List ℚ) (eigenvalues : List ℚ)
    (c : ℕ) : ℚ :=
  let kbar : ℚ := degrees.sum / (n : ℚ)
  let betabar : ℚ := (∑ j ∈ Finset.Ico 1 c, eigenvalues.getD j 0) / ((c : ℚ) - 1)
  let amp : ℚ := ∑ j ∈ Finset.Ico c n, 1 / (|betabar - eigenvalues.getD j 0| + epsGuard)
  (n : ℚ) / (kbar * amp)

theorem map_sum_take_drop (l : List ℚ) (f : ℚ → ℚ) (a : ℕ) :
    ∀ b, a + b ≤ l.length →
      (((l.drop a).take b).map f).sum = ∑ j ∈ Finset.range b, f (l.getD (a + j) 0) := by
  intro b
  induction b with
  | zero => simp
  | succ b ih =>
    intro h
    rw [List.take_succ, List.map_append, List.sum_append, Finset.sum_range_succ,
      ih (by omega)]
    congr 1
    have hlt : a + b < l.length := by omega
    have hx : l[a + b]? = some l[a + b] := List.getElem?_eq_getElem hlt
    rw [List.getElem?_drop, hx]
    simp [List.getD_eq_getElem?_getD, hx]

/-- C6: for every graph with `n` nodes, at least one edge, and every
`communities_number` `c` with `2 ≤ c < n`, `significance_index` returns
exactly `H = n / (k̄ · amplification)` with `β̄` the mean of the Laplacian
eigenvalues `β_1 … β_{c-1}` (ascending order), `k̄` the mean (weighted)
degree, and `amplification = Σ_{j=c}^{n-1} 1 / (|β̄ − β_j| + 1e-7)`. -/
theorem significance_index_eq_spec (n c : ℕ) (degrees eigenvalues : List ℚ)
    (hd : degrees.length = n) (he : eigenvalues.length = n)
    (hedge : 0 < degrees.sum) (hc2 : 2 ≤ c) (hcn : c < n) :
    significance_index n degrees eigenvalues c
      = significance_index_spec n degrees eigenvalues c := by
  unfold significance_index significance_index_spec
  have hslice_sum : ((eigenvalues.drop 1).take (c - 1)).sum
      = ∑ j ∈ Finset.Ico 1 c, eigenvalues.getD j 0 := by
    have := map_sum_take_drop eigenvalues id 1 (c - 1) (by omega)
    simp only [List.map_id] at this
    rw [this, Finset.sum_Ico_eq_sum_range]
    simp
  have hslice_len : ((eigenvalues.drop 1).take (c - 1)).length = c - 1 := by
    rw [List.length_take, List.length_drop, he]
    omega
  have htail : ∀ beta : ℚ,
      ((eigenvalues.drop c).map (fun ev => 1 / (|beta - ev| + epsGuard))).sum
        = ∑ j ∈ Finset.Ico c n, 1 / (|beta - eigenvalues.getD j 0| + epsGuard) := by
    intro beta
    have hdrop : eigenvalues.drop c = (eigenvalues.drop c).take (n - c) := by
      rw [List.take_of_length_le]
      rw [List.length_drop, he]
    rw [hdrop, map_sum_take_drop eigenvalues _ c (n - c) (by omega),
      Finset.sum_Ico_eq_sum_range]
  have hcast : (((c - 1 : ℕ)) : ℚ) = (c : ℚ) - 1 := by
    have h1 : (1 : ℕ) ≤ c := by omega
    push_cast [h1]
    ring
  simp only [hslice_sum, hslice_len, hcast, htail, hd]

theorem significance_index_eq_spec_witness :
    significance_index 4 [1, 1, 1, 1] [0, 1, 2, 3] 2
      = significance_index_spec 4 [1, 1, 1, 1] [0, 1, 2, 3] 2 :=
  significance_index_eq_spec 4 2 [1, 1, 1, 1] [0, 1, 2, 3]
    (by decide) (by decide) (by norm_num) (by decide) (by decide)

/-! ### Spectral community-based node centrality
(src/nneslib/node/node_significance.py, centrality_metric_spectrum) -/

/-- `eigenvectors_dot[i]`: the squared norm `Σ_k v[k,i]²` of eigenvector
column `i`. -/
def eigenvectorsDot (n : ℕ) (V : Fin n → Fin n → ℚ) (i : Fin n) : ℚ :=
  ∑ k, (V k i) ^ 2

/-- The per-node score of `centrality_metric_spectrum`:
`sum([v[k,idx]**2 / dot[idx] for idx in selected]) / communities_number`. -/
def spectrumScore (n : ℕ) (V : Fin n → Fin n → ℚ) (sel : List (Fin n)) (c : ℕ)
    (k : Fin n) : ℚ :=
  (sel.map (fun idx => (V k idx) ^ 2 / eigenvectorsDot n V idx)).sum / (c : ℚ)

/-- C5: for an undirected graph with a symmetric real eigen-decomposition of
its adjacency matrix and a selection of the `c` algebraically-largest
eigenvalues (`1 ≤ c < n`, nonzero eigenvectors), every node score computed by
`centrality_metric_spectrum` equals `(1/c) · Σ_{i ∈ selected} v_i[k]²/‖v_i‖²`,
lies in `[0, 1]`, and the scores summed over all nodes equal 1. -/
theorem centrality_metric_spectrum_normalized (n c : ℕ)
    (A V : Fin n → Fin n → ℚ) (ev : Fin n → ℚ) (sel : List (Fin n))
    (hAsym : ∀ i j, A i j = A j i)
    (heig : ∀ i k, (∑ j, A k j * V j i) = ev i * V k i)
    (hlen : sel.length = c) (hnodup : sel.Nodup)
    (hlargest : ∀ i ∈ sel, ∀ j, j ∉ sel → ev j ≤ ev i)
    (hc : 1 ≤ c) (hcn : c < n)
    (hdot : ∀ i ∈ sel, 0 < eigenvectorsDot n V i) :
    (∀ k, spectrumScore n V sel c k
        = (1 / (c : ℚ)) * (sel.map (fun idx => (V k idx) ^ 2 / eigenvectorsDot n V idx)).sum) ∧
    (∀ k, 0 ≤ spectrumScore n V sel c k ∧ spectrumScore n V sel c k ≤ 1) ∧
    (∑ k, spectrumScore n V sel c k) = 1 := by
  have hc0 : (0 : ℚ) < (c : ℚ) := by
    have : 0 < c := hc
    exact_mod_cast this
  have hterm_nonneg : ∀ k : Fin n, ∀ x ∈ sel.map
      (fun idx => (V k idx) ^ 2 / eigenvectorsDot n V idx), 0 ≤ x := by
    intro k x hx
    obtain ⟨idx, hidx, rfl⟩ := List.mem_map.mp hx
    exact div_nonneg (sq_nonneg _) (le_of_lt (hdot idx hidx))
  refine ⟨fun k => by unfold spectrumScore; ring, fun k => ⟨?_, ?_⟩, ?_⟩
  · exact div_nonneg (List.sum_nonneg (hterm_nonneg k)) (le_of_lt hc0)
  · unfold spectrumScore
    rw [div_le_one hc0]
    calc (sel.map (fun idx => (V k idx) ^ 2 / eigenvectorsDot n V idx)).sum
        ≤ (sel.map (fun idx => (V k idx) ^ 2 / eigenvectorsDot n V idx)).length • (1 : ℚ) := by
          apply List.sum_le_card_nsmul
          intro x hx
          obtain ⟨idx, hidx, rfl⟩ := List.mem_map.mp hx
          rw [div_le_one (hdot idx hidx)]
          exact Finset.single_le_sum (f := fun k' => (V k' idx) ^ 2)
            (fun _ _ => sq_nonneg _) (Finset.mem_univ k)
      _ = (c : ℚ) := by rw [List.length_map, hlen]; simp
  · have hstep : ∀ k : Fin n, spectrumScore n V sel c k
        = (∑ i ∈ sel.toFinset, (V k i) ^ 2 / eigenvectorsDot n V i) / (c : ℚ) := by
      intro k
      unfold spectrumScore
      rw [← List.sum_toFinset _ hnodup]
    have hcard : sel.toFinset.card = c := by
      rw [List.toFinset_card_of_nodup hnodup, hlen]
    calc (∑ k, spectrumScore n V sel c k)
        = (∑ k : Fin n, ∑ i ∈ sel.toFinset, (V k i) ^ 2 / eigenvectorsDot n V i) / (c : ℚ) := by
          simp only [hstep]
          rw [← Finset.sum_div]
      _ = (∑ i ∈ sel.toFinset, ∑ k : Fin n, (V k i) ^ 2 / eigenvectorsDot n V i) / (c : ℚ) := by
          rw [Finset.sum_comm]
      _ = (∑ i ∈ sel.toFinset, (1 : ℚ)) / (c : ℚ) := by
          congr 1
          apply Finset.sum_congr rfl
          intro i hi
          rw [← Finset.sum_div]
          exact div_self (ne_of_gt (hdot i (List.mem_toFinset.mp hi)))
      _ = 1 := by
          rw [Finset.sum_const, hcard, nsmul_eq_mul, mul_one]
          exact div_self (ne_of_gt hc0)

/-- The identity matrix on `Fin 2`, used as a concrete eigenvector matrix
(the eigen-decomposition of the empty 2-node graph's zero adjacency matrix). -/
def wV : Fin 2 → Fin 2 → ℚ := fun k i => if k = i then 1 else 0

theorem centrality_metric_spectrum_normalized_witness :
    (∀ k, spectrumScore 2 wV [0] 1 k
        = (1 / ((1 : ℕ) : ℚ)) * (([0] : List (Fin 2)).map
            (fun idx => (wV k idx) ^ 2 / eigenvectorsDot 2 wV idx)).sum) ∧
    (∀ k, 0 ≤ spectrumScore 2 wV [0] 1 k ∧ spectrumScore 2 wV [0] 1 k ≤ 1) ∧
    (∑ k, spectrumScore 2 wV [0] 1 k) = 1 :=
  centrality_metric_spectrum_normalized 2 1 (fun _ _ => 0) wV (fun _ => 0) [0]
    (fun _ _ => rfl)
    (by intro i k; simp)
    rfl
    (by decide)
    (fun i _ j _ => le_refl 0)
    (le_refl 1)
    (by decide)
    (by
      intro i hi
      simp only [List.mem_singleton] at hi
      subst hi
      simp [eigenvectorsDot, wV, Fin.sum_univ_two])

/-! ### Edge random-walk k-path centrality (src/nneslib/edge/internal/ERW.py) -/

/-- networkx 2.x `graph.neighbors(node)` returns an iterator, not a list;
`len()` of an iterator raises `TypeError`. -/
def lenOfNeighborsIter (g : Graph) (node : ℕ) : Except PyErr ℕ :=
  .error .typeError

/-- `_normalized_degree`: `{node: len(graph.neighbors(node)) / |V|}`, computed
by the entry point before anything else (and otherwise unused).  Under the
repository's networkx 2.x collaborator, the `len()` call raises `TypeError`
at the first node, so the whole comprehension fails for every graph with at
least one node. -/
def normalizedDegree (g : Graph) : Except PyErr (List (ℕ × ℚ)) :=
  g.nodes.mapM (fun node =>
    (lenOfNeighborsIter g node).map (fun l => (node, (l : ℚ) / (g.nodes.length : ℚ))))

/-- `_initial_edge_weight`: `{(u, v): 1/|E|}` for every edge. -/
def initialEdgeWeight (g : Graph) : List ((ℕ × ℕ) × ℚ) :=
  g.edges.map (fun e => (e, 1 / (g.edges.length : ℚ)))

/-- The while-loop of `_message_propagation`, with an explicit fuel bound
(the loop marks a fresh edge direction pair each iteration, so any fuel
of at least `|E| + 1` reproduces it).  `choose` is the `random.choice`
oracle, selecting an index into the candidate list.  The guard is
`N < k and len(neighbors(vn)) > sum(T[(u, vn)] for u in neighbors(vn))`;
the body increments the selected edge's accumulated weight by the `beta`
step, marks both directions traversed, moves to the chosen neighbour and
increments the walk length. -/
def messageWalk (g : Graph) (k : ℤ) (beta : ℚ) (choose : List (ℕ × ℕ) → ℕ) :
    ℕ → ℕ → ℤ → ((ℕ × ℕ) → ℕ) → List ((ℕ × ℕ) × ℚ) → List ((ℕ × ℕ) × ℚ)
  | 0, _, _, _, w => w
  | fuel + 1, vn, N, T, w =>
    if N < k ∧ ((g.neighbors vn).map (fun u => T (u, vn))).sum < (g.neighbors vn).length then
      let candidates := ((g.neighbors vn).filter (fun u => T (u, vn) = 0)).map (fun u => (u, vn))
      let selected := candidates.getD (choose candidates) (0, 0)
      let w' := if (w.map Prod.fst).contains selected then
          w.map (fun kv => if kv.1 = selected then (kv.1, kv.2 + beta) else kv)
        else
          w.map (fun kv => if kv.1 = (selected.2, selected.1) then (kv.1, kv.2 + beta) else kv)
      let T' := fun d => if d = selected ∨ d = (selected.2, selected.1) then 1 else T d
      messageWalk g k beta choose fuel selected.1 (N + 1) T' w'
    else w

/-- `_message_propagation(graph, vn, N, k, beta, edge_weight)`: initializes
the traversal markers `T` to 0 for both directions of every edge, then runs
the walk loop. -/
def message_propagation (g : Graph) (vn : ℕ) (N k : ℤ) (beta : ℚ)
    (choose : List (ℕ × ℕ) → ℕ) (w : List ((ℕ × ℕ) × ℚ)) : List ((ℕ × ℕ) × ℚ) :=
  messageWalk g k beta choose (g.edges.length + 1) vn N (fun _ => 0) w

/-- `edge_random_walk_k_path(graph, k, ruo, beta)`: its first statement
computes the (otherwise unused) normalized degrees — propagating the
`TypeError` that raises — then initializes the uniform edge weights and runs
`ruo` iterations, each starting a walk at `random.choice(list(graph.nodes()))`
(which raises `IndexError` on an empty node list); `start` is the oracle
picking the start node of iteration `i`. -/
def edge_random_walk_k_path (g : Graph) (k ruo : ℤ) (beta : ℚ)
    (start : ℕ → ℕ) (choose : List (ℕ × ℕ) → ℕ) :
    Except PyErr (List ((ℕ × ℕ) × ℚ)) := do
  let _nd ← normalizedDegree g
  let w0 := initialEdgeWeight g
  (List.range ruo.toNat).foldlM
    (fun w i =>
      if g.nodes = [] then .error .indexError
      else .ok (message_propagation g (start i) 0 k beta choose w))
    w0

theorem messageWalk_nonpos_k (g : Graph) (k : ℤ) (beta : ℚ)
    (choose : List (ℕ × ℕ) → ℕ) (hk : k ≤ 0) (fuel vn : ℕ)
    (T : (ℕ × ℕ) → ℕ) (w : List ((ℕ × ℕ) × ℚ)) :
    messageWalk g k beta choose (fuel + 1) vn 0 T w = w := by
  rw [messageWalk]
  rw [if_neg]
  rintro ⟨hlt, -⟩
  omega

/-- C7: the claimed degenerate boundary is never reached.  Under the
repository's networkx 2.x collaborator, `_normalized_degree` computes
`len(graph.neighbors(node))` — `len()` of an iterator — which raises
`TypeError` at the first node, and it runs as the first statement of
`edge_random_walk_k_path`: for every graph with at least one edge (hence at
least one node) the function raises `TypeError` for all values of `ruo` and
`k`, instead of returning the uniform `1/|E|` weighting when
`ruo ≤ 0` or `k ≤ 0`. -/
theorem erw_kpath_typeError (g : Graph) (k ruo : ℤ) (beta : ℚ)
    (start : ℕ → ℕ) (choose : List (ℕ × ℕ) → ℕ)
    (hne : g.edges ≠ [])
    (hcoh : ∀ e ∈ g.edges, e.1 ∈ g.nodes ∧ e.2 ∈ g.nodes) :
    edge_random_walk_k_path g k ruo beta start choose = .error .typeError := by
  obtain ⟨a, rest, hn⟩ : ∃ a rest, g.nodes = a :: rest := by
    cases he : g.edges with
    | nil => exact absurd he hne
    | cons e tail =>
      have hmem := (hcoh e (by rw [he]; exact List.mem_cons_self _ _)).1
      cases hns : g.nodes with
      | nil => rw [hns] at hmem; exact absurd hmem (List.not_mem_nil _)
      | cons a rest => exact ⟨a, rest, rfl⟩
  have hnd : normalizedDegree g = .error .typeError := by
    unfold normalizedDegree
    rw [hn]
    rfl
  unfold edge_random_walk_k_path
  rw [hnd]
  rfl

theorem erw_kpath_typeError_witness :
    edge_random_walk_k_path oneEdgeGraph 0 5 1 (fun _ => 0) (fun _ => 0)
      = .error .typeError :=
  erw_kpath_typeError oneEdgeGraph 0 5 1 (fun _ => 0) (fun _ => 0)
    (by decide) (by decide)

/-! ### Node efficiency / vulnerability centrality
(src/nneslib/node/internal/EffC.py)

The shortest-path queries are the graph collaborator's (networkx); they are
modelled as path-valued oracles `sp` (all-pairs, on the full graph) and
`spSub` (recomputation on the subgraph without one node), constrained by
validity hypotheses phrased against an executable breadth-first distance. -/

/-- The induced subgraph `graph.subgraph([node for node in nodes if node != x])`. -/
def removeNode (g : Graph) (x : ℕ) : Graph where
  nodes := g.nodes.filter (fun w => w ≠ x)
  edges := g.edges.filter (fun e => e.1 ≠ x ∧ e.2 ≠ x)
  adj := fun a b => g.adj a b && a ≠ x && b ≠ x

/-- Nodes reachable from `s` by a walk of length at most `k` (walk steps go
to adjacent nodes of the graph's node list). -/
def ball (g : Graph) (s : ℕ) : ℕ → List ℕ
  | 0 => [s]
  | k + 1 => ball g s k ++ (ball g s k).bind (fun v => g.nodes.filter (fun w => g.adj v w))

/-- The least `k < bound` with `t ∈ ball g s k`, if any. -/
def firstBall (g : Graph) (s t : ℕ) : ℕ → Option ℕ
  | 0 => none
  | bound + 1 =>
    match firstBall g s t bound with
    | some d => some d
    | none => if t ∈ ball g s bound then some bound else none

/-- Hop-count graph distance: least walk length from `s` to `t`, searched up
to the node count (a shortest walk repeats no node, so this bound is
complete). -/
def dist (g : Graph) (s t : ℕ) : Option ℕ :=
  firstBall g s t g.nodes.length

/-- Consecutive adjacency along a node list. -/
def isChain (g : Graph) : List ℕ → Bool
  | [] => false
  | [_] => true
  | a :: b :: rest => g.adj a b && isChain g (b :: rest)

/-- A simple path from `s` to `t` as returned by the collaborator's
`shortest_path`: a chain of adjacent, pairwise-distinct graph nodes. -/
def PathTo (g : Graph) (s t : ℕ) (p : List ℕ) : Prop :=
  isChain g p = true ∧ p.head? = some s ∧ p.getLast? = some t ∧
  p.Nodup ∧ ∀ w ∈ p, w ∈ g.nodes

instance (g : Graph) (s t : ℕ) (p : List ℕ) : Decidable (PathTo g s t p) := by
  unfold PathTo
  infer_instance

/-- Validity of the all-pairs shortest-path oracle (`nx.shortest_path(graph)`
read through `.get(target, [])`): the empty list exactly when no path exists,
otherwise a shortest simple path, whose edge count is the graph distance. -/
abbrev SpValid (g : Graph) (sp : ℕ → ℕ → List ℕ) : Prop :=
  ∀ s ∈ g.nodes, ∀ t ∈ g.nodes, s ≠ t →
    (sp s t = [] → dist g s t = none) ∧
    (sp s t ≠ [] → PathTo g s t (sp s t) ∧ dist g s t = some ((sp s t).length - 1))

/-- Validity of the subgraph shortest-path recomputation oracle
(`nx.shortest_path(subgraph, source, target)`, with the `except` clause
turning "no path" into `[]`). -/
abbrev SpSubValid (g : Graph) (spSub : ℕ → ℕ → ℕ → List ℕ) : Prop :=
  ∀ x ∈ g.nodes, ∀ s ∈ g.nodes, ∀ t ∈ g.nodes, s ≠ t → x ≠ s → x ≠ t →
    (spSub x s t = [] → dist (removeNode g x) s t = none) ∧
    (spSub x s t ≠ [] → PathTo (removeNode g x) s t (spSub x s t) ∧
      dist (removeNode g x) s t = some ((spSub x s t).length - 1))

/-- `_efficiency(shortest_path, source, target)` with `removed_node=None`:
`0` when no path, else `1 / (len(path) - 1)`. -/
def efficiencyBase (sp : ℕ → ℕ → List ℕ) (s t : ℕ) : ℚ :=
  let distance := sp s t
  if distance.length = 0 then 0 else 1 / ((distance.length : ℚ) - 1)

/-- `_efficiency(shortest_path, source, target, removed_node, graph, weight)`
with a removed node: 0 for pairs containing the removed node; 0 when there was
no original path; the original efficiency when the original shortest path
avoids the removed node; otherwise the efficiency of the recomputed path on
the subgraph (0 when none remains). -/
def efficiencyRemoved (sp : ℕ → ℕ → List ℕ) (spSub : ℕ → ℕ → ℕ → List ℕ)
    (x s t : ℕ) : ℚ :=
  if x = s ∨ x = t then 0
  else
    let distance := sp s t
    if distance.length = 0 then 0
    else if x ∉ distance then 1 / ((distance.length : ℚ) - 1)
    else
      let d2 := spSub x s t
      if d2.length = 0 then 0 else 1 / ((d2.length : ℚ) - 1)

/-- The pair loop
`for index, source in enumerate(nodes[:-1]) for target in nodes[index+1:]`. -/
def pairsList : List ℕ → List (ℕ × ℕ)
  | [] => []
  | a :: rest => rest.map (fun b => (a, b)) ++ pairsList rest

/-- `efficiency_centrality(graph, weight)`: baseline `E`, then for each node
`x` the degraded efficiency `E_hat` (same `n·n − n` normalization) and the
score `(E − E_hat) / E`. -/
def efficiency_centrality (g : Graph) (sp : ℕ → ℕ → List ℕ)
    (spSub : ℕ → ℕ → ℕ → List ℕ) : List (ℕ × ℚ) :=
  let nodes := g.nodes
  let n : ℚ := (nodes.length : ℚ)
  let E : ℚ := ((pairsList nodes).map (fun p => efficiencyBase sp p.1 p.2)).sum / (n * n - n)
  nodes.map (fun x =>
    let Ehat : ℚ :=
      ((pairsList nodes).map (fun p => efficiencyRemoved sp spSub x p.1 p.2)).sum / (n * n - n)
    (x, (E - Ehat) / E))

/-- The specification's pairwise efficiency: `1/d` with `d` the hop-count
distance, `0` when unreachable. -/
def effSpec (g : Graph) (s t : ℕ) : ℚ :=
  match dist g s t with
  | none => 0
  | some d => 1 / (d : ℚ)

/-- The specification's pairwise efficiency after removing `x`: 0 for pairs
containing `x`, otherwise the efficiency on the graph without `x`. -/
def effSpecRemoved (g : Graph) (x s t : ℕ) : ℚ :=
  if x = s ∨ x = t then 0 else effSpec (removeNode g x) s t

/-- The specification's baseline efficiency `E`: pairwise efficiencies
averaged with the `n(n-1)` normalization. -/
def baselineEfficiency (g : Graph) : ℚ :=
  ((pairsList g.nodes).map (fun p => effSpec g p.1 p.2)).sum
    / ((g.nodes.length : ℚ) * (g.nodes.length : ℚ) - (g.nodes.length : ℚ))

/-- The specification's post-removal efficiency `E_hat(x)`, normalized by the
same `n(n-1)` of the original graph. -/
def removedEfficiency (g : Graph) (x : ℕ) : ℚ :=
  ((pairsList g.nodes).map (fun p => effSpecRemoved g x p.1 p.2)).sum
    / ((g.nodes.length : ℚ) * (g.nodes.length : ℚ) - (g.nodes.length : ℚ))

theorem ball_succ_subset (g : Graph) (s : ℕ) (k : ℕ) :
    ∀ t ∈ ball g s k, t ∈ ball g s (k + 1) := by
  intro t ht
  rw [ball]
  exact List.mem_append_left _ ht

theorem ball_mono (g : Graph) (s : ℕ) {k k' : ℕ} (h : k ≤ k') :
    ∀ t ∈ ball g s k, t ∈ ball g s k' := by
  induction k' with
  | zero =>
    intro t ht
    have : k = 0 := by omega
    subst this
    exact ht
  | succ k' ih =>
    intro t ht
    by_cases hk : k = k' + 1
    · subst hk; exact ht
    · exact ball_succ_subset g s k' t (ih (by omega) t ht)

theorem ball_subgraph {sub g : Graph} (s : ℕ)
    (hn : ∀ w ∈ sub.nodes, w ∈ g.nodes)
    (ha : ∀ a b, sub.adj a b = true → g.adj a b = true) :
    ∀ k, ∀ t ∈ ball sub s k, t ∈ ball g s k := by
  intro k
  induction k with
  | zero => intro t ht; exact ht
  | succ k ih =>
    intro t ht
    rw [ball] at ht ⊢
    rcases List.mem_append.mp ht with h | h
    · exact List.mem_append_left _ (ih t h)
    · obtain ⟨v, hv, hmem⟩ := List.mem_bind.mp h
      have hvg := ih v hv
      rw [List.mem_filter] at hmem
      refine List.mem_append_right _ (List.mem_bind.mpr ⟨v, hvg, ?_⟩)
      rw [List.mem_filter]
      exact ⟨hn t hmem.1, by simpa using ha v t (by simpa using hmem.2)⟩

theorem chain_ball_aux (g : Graph) (s : ℕ) :
    ∀ (p : List ℕ) (a t k : ℕ), isChain g (a :: p) = true →
      a ∈ ball g s k → (∀ w ∈ p, w ∈ g.nodes) → (a :: p).getLast? = some t →
      t ∈ ball g s (k + p.length) := by
  intro p
  induction p with
  | nil =>
    intro a t k _ ha _ hlast
    simp only [List.getLast?_singleton, Option.some.injEq] at hlast
    subst hlast
    simpa using ha
  | cons b rest ih =>
    intro a t k hchain ha hmem hlast
    rw [isChain, Bool.and_eq_true] at hchain
    have hb : b ∈ ball g s (k + 1) := by
      rw [ball]
      refine List.mem_append_right _ (List.mem_bind.mpr ⟨a, ha, ?_⟩)
      rw [List.mem_filter]
      exact ⟨hmem b (List.mem_cons_self _ _), by simpa using hchain.1⟩
    have hlast' : (b :: rest).getLast? = some t := by
      rwa [List.getLast?_cons_cons] at hlast
    have := ih b t (k + 1) hchain.2 hb
      (fun w hw => hmem w (List.mem_cons_of_mem _ hw)) hlast'
    have harith : k + 1 + rest.length = k + (rest.length + 1) := by omega
    rwa [harith] at this

theorem chain_ball (g : Graph) (s t : ℕ) (p : List ℕ)
    (hchain : isChain g p = true) (hhead : p.head? = some s)
    (hlast : p.getLast? = some t) (htail : ∀ w ∈ p.tail, w ∈ g.nodes) :
    t ∈ ball g s (p.length - 1) := by
  cases p with
  | nil => exact absurd hhead (by simp)
  | cons a rest =>
    simp only [List.head?_cons, Option.some.injEq] at hhead
    subst hhead
    have := chain_ball_aux g a rest a t 0 hchain (by simp [ball]) htail hlast
    simpa using this

theorem firstBall_some (g : Graph) (s t : ℕ) :
    ∀ (bound d : ℕ), firstBall g s t bound = some d →
      t ∈ ball g s d ∧ d < bound ∧ ∀ j < d, t ∉ ball g s j := by
  intro bound
  induction bound with
  | zero => intro d h; exact absurd h (by rw [firstBall]; simp)
  | succ bound ih =>
    intro d h
    rw [firstBall] at h
    cases hfb : firstBall g s t bound with
    | some d' =>
      rw [hfb] at h
      cases h
      obtain ⟨h1, h2, h3⟩ := ih _ hfb
      exact ⟨h1, by omega, h3⟩
    | none =>
      rw [hfb] at h
      by_cases hmem : t ∈ ball g s bound
      · rw [if_pos hmem] at h
        cases h
        refine ⟨hmem, by omega, ?_⟩
        intro j hj hballj
        have hnone := ih
        -- from firstBall bound = none, no j < bound has t in its ball
        have : ∀ b, firstBall g s t b = none → ∀ j < b, t ∉ ball g s j := by
          intro b
          induction b with
          | zero => intro _ j hj'; omega
          | succ b ihb =>
            intro hb j hj'
            rw [firstBall] at hb
            cases hfb' : firstBall g s t b with
            | some d'' => rw [hfb'] at hb; exact absurd hb (by simp)
            | none =>
              rw [hfb'] at hb
              by_cases hm : t ∈ ball g s b
              · rw [if_pos hm] at hb; exact absurd hb (by simp)
              · rcases Nat.lt_succ_iff_lt_or_eq.mp hj' with h' | h'
                · exact ihb hfb' j h'
                · subst h'; exact hm
        exact this bound hfb j hj hballj
      · rw [if_neg hmem] at h
        exact absurd h (by simp)

theorem firstBall_none (g : Graph) (s t : ℕ) :
    ∀ (bound : ℕ), firstBall g s t bound = none → ∀ j < bound, t ∉ ball g s j := by
  intro bound
  induction bound with
  | zero => intro _ j hj; omega
  | succ bound ih =>
    intro hb j hj
    rw [firstBall] at hb
    cases hfb : firstBall g s t bound with
    | some d => rw [hfb] at hb; exact absurd hb (by simp)
    | none =>
      rw [hfb] at hb
      by_cases hm : t ∈ ball g s bound
      · rw [if_pos hm] at hb; exact absurd hb (by simp)
      · rcases Nat.lt_succ_iff_lt_or_eq.mp hj with h' | h'
        · exact ih hfb j h'
        · subst h'; exact hm

theorem firstBall_mem (g : Graph) (s t : ℕ) {d bound : ℕ}
    (hmem : t ∈ ball g s d) (hd : d < bound) :
    ∃ d', firstBall g s t bound = some d' ∧ d' ≤ d := by
  cases hfb : firstBall g s t bound with
  | none => exact absurd hmem (firstBall_none g s t bound hfb d hd)
  | some d' =>
    refine ⟨d', rfl, ?_⟩
    by_contra hlt
    exact (firstBall_some g s t bound d' hfb).2.2 d (by omega) hmem

theorem removeNode_nodes_sub (g : Graph) (x : ℕ) :
    ∀ w ∈ (removeNode g x).nodes, w ∈ g.nodes := by
  intro w hw
  rw [removeNode] at hw
  exact (List.mem_filter.mp hw).1

theorem removeNode_adj_sub (g : Graph) (x : ℕ) :
    ∀ a b, (removeNode g x).adj a b = true → g.adj a b = true := by
  intro a b hab
  rw [removeNode] at hab
  simp only [Bool.and_eq_true] at hab
  exact hab.1.1

theorem removeNode_length_le (g : Graph) (x : ℕ) :
    (removeNode g x).nodes.length ≤ g.nodes.length := by
  rw [removeNode]
  exact List.length_filter_le _ _

theorem chain_removeNode (g : Graph) (x : ℕ) :
    ∀ p : List ℕ, isChain g p = true → (∀ w ∈ p, w ≠ x) →
      isChain (removeNode g x) p = true := by
  intro p
  induction p with
  | nil => intro h _; exact absurd h (by rw [isChain]; simp)
  | cons a rest ih =>
    cases rest with
    | nil => intro _ _; rfl
    | cons b rest' =>
      intro hchain hmem
      rw [isChain, Bool.and_eq_true] at hchain
      rw [isChain, Bool.and_eq_true]
      refine ⟨?_, ih hchain.2 (fun w hw => hmem w (List.mem_cons_of_mem _ hw))⟩
      show ((removeNode g x).adj a b) = true
      rw [removeNode]
      simp only [Bool.and_eq_true, decide_eq_true_eq]
      exact ⟨⟨hchain.1, hmem a (List.mem_cons_self _ _)⟩,
        hmem b (List.mem_cons_of_mem _ (List.mem_cons_self _ _))⟩

theorem dist_none_removeNode (g : Graph) (x s t : ℕ) (h : dist g s t = none) :
    dist (removeNode g x) s t = none := by
  cases hd : dist (removeNode g x) s t with
  | none => rfl
  | some d =>
    rw [dist] at hd
    obtain ⟨hmem, hlt, -⟩ := firstBall_some _ s t _ d hd
    have hmemg : t ∈ ball g s d :=
      ball_subgraph s (removeNode_nodes_sub g x) (removeNode_adj_sub g x) d t hmem
    have hltg : d < g.nodes.length := lt_of_lt_of_le hlt (removeNode_length_le g x)
    obtain ⟨d', hd', -⟩ := firstBall_mem g s t hmemg hltg
    rw [dist] at h
    rw [h] at hd'
    exact Option.noConfusion hd'

theorem dist_removeNode_eq (g : Graph) (x s t : ℕ) (p : List ℕ)
    (hpath : PathTo g s t p) (hx : x ∉ p)
    (hdist : dist g s t = some (p.length - 1)) :
    dist (removeNode g x) s t = some (p.length - 1) := by
  obtain ⟨hchain, hhead, hlast, hnodup, hmemall⟩ := hpath
  have hpne : p ≠ [] := by
    intro h; rw [h] at hhead; exact Option.noConfusion hhead
  have hlen1 : 1 ≤ p.length := List.length_pos.mpr hpne
  have hmemall' : ∀ w ∈ p, w ∈ (removeNode g x).nodes := by
    intro w hw
    rw [removeNode]
    simp only [List.mem_filter, decide_eq_true_eq]
    exact ⟨hmemall w hw, fun hwx => hx (hwx ▸ hw)⟩
  have hchain' : isChain (removeNode g x) p = true :=
    chain_removeNode g x p hchain (fun w hw hwx => hx (hwx ▸ hw))
  have hball : t ∈ ball (removeNode g x) s (p.length - 1) :=
    chain_ball _ s t p hchain' hhead hlast
      (fun w hw => hmemall' w (List.mem_of_mem_tail hw))
  have hcard : p.length ≤ (removeNode g x).nodes.length :=
    calc p.length = p.toFinset.card := (List.toFinset_card_of_nodup hnodup).symm
      _ ≤ (removeNode g x).nodes.toFinset.card :=
          Finset.card_le_card
            (fun w hw => List.mem_toFinset.mpr (hmemall' w (List.mem_toFinset.mp hw)))
      _ ≤ (removeNode g x).nodes.length := List.toFinset_card_le _
  have hbound : p.length - 1 < (removeNode g x).nodes.length := by omega
  obtain ⟨d', hd', hle⟩ := firstBall_mem (removeNode g x) s t hball hbound
  obtain ⟨hmem', hlt', -⟩ := firstBall_some (removeNode g x) s t _ d' hd'
  have hmemg : t ∈ ball g s d' :=
    ball_subgraph s (removeNode_nodes_sub g x) (removeNode_adj_sub g x) d' t hmem'
  rw [dist] at hdist
  have hming := firstBall_some g s t g.nodes.length (p.length - 1) hdist
  have hnotlt : ¬ d' < p.length - 1 := fun hc => hming.2.2 d' hc hmemg
  have heq : d' = p.length - 1 := by omega
  rw [dist, hd', heq]

theorem one_div_cast_pred (n : ℕ) (h : 1 ≤ n) :
    (1 : ℚ) / ((n : ℚ) - 1) = 1 / (((n - 1 : ℕ)) : ℚ) := by
  rw [Nat.cast_sub h, Nat.cast_one]

theorem efficiencyBase_eq_effSpec (g : Graph) (sp : ℕ → ℕ → List ℕ)
    (hsp : SpValid g sp) {s t : ℕ} (hs : s ∈ g.nodes) (ht : t ∈ g.nodes)
    (hst : s ≠ t) :
    efficiencyBase sp s t = effSpec g s t := by
  obtain ⟨hempty, hne⟩ := hsp s hs t ht hst
  unfold efficiencyBase effSpec
  by_cases h : sp s t = []
  · rw [hempty h]
    simp [h]
  · obtain ⟨hpath, hdist⟩ := hne h
    have hlen : ¬ (sp s t).length = 0 := by
      simpa [List.length_eq_zero] using h
    simp only [hdist, hlen, if_false, if_neg hlen]
    rw [one_div_cast_pred _ (by omega)]

theorem efficiencyRemoved_eq_effSpecRemoved (g : Graph)
    (sp : ℕ → ℕ → List ℕ) (spSub : ℕ → ℕ → ℕ → List ℕ)
    (hsp : SpValid g sp) (hspsub : SpSubValid g spSub)
    {x s t : ℕ} (hx : x ∈ g.nodes) (hs : s ∈ g.nodes) (ht : t ∈ g.nodes)
    (hst : s ≠ t) :
    efficiencyRemoved sp spSub x s t = effSpecRemoved g x s t := by
  unfold efficiencyRemoved effSpecRemoved
  by_cases hxe : x = s ∨ x = t
  · rw [if_pos hxe, if_pos hxe]
  · rw [if_neg hxe, if_neg hxe]
    push_neg at hxe
    obtain ⟨hxs, hxt⟩ := hxe
    obtain ⟨hempty, hne⟩ := hsp s hs t ht hst
    by_cases hpe : sp s t = []
    · have h1 := hempty hpe
      have h2 := dist_none_removeNode g x s t h1
      simp [hpe, effSpec, h2]
    · obtain ⟨hpath, hdist⟩ := hne hpe
      have hlen0 : ¬ (sp s t).length = 0 := by
        simpa [List.length_eq_zero] using hpe
      rw [if_neg hlen0]
      by_cases hxp : x ∉ sp s t
      · rw [if_pos hxp]
        have hd := dist_removeNode_eq g x s t (sp s t) hpath hxp hdist
        unfold effSpec
        simp only [hd]
        rw [one_div_cast_pred _ (by omega)]
      · rw [if_neg hxp]
        obtain ⟨hempty', hne'⟩ := hspsub x hx s hs t ht hst hxs hxt
        by_cases hqe : spSub x s t = []
        · have hd := hempty' hqe
          have hqlen : (spSub x s t).length = 0 := by simp [hqe]
          rw [if_pos hqlen]
          unfold effSpec
          simp [hd]
        · obtain ⟨hqpath, hqdist⟩ := hne' hqe
          have hqlen0 : ¬ (spSub x s t).length = 0 := by
            simpa [List.length_eq_zero] using hqe
          rw [if_neg hqlen0]
          unfold effSpec
          simp only [hqdist]
          rw [one_div_cast_pred _ (by omega)]

theorem pairsList_mem : ∀ (nodes : List ℕ), nodes.Nodup → ∀ p ∈ pairsList nodes,
    p.1 ∈ nodes ∧ p.2 ∈ nodes ∧ p.1 ≠ p.2 := by
  intro nodes
  induction nodes with
  | nil => intro _ p hp; exact absurd hp (by rw [pairsList]; simp)
  | cons a rest ih =>
    intro hnodup p hp
    rw [pairsList, List.mem_append] at hp
    rcases hp with h | h
    · obtain ⟨b, hb, rfl⟩ := List.mem_map.mp h
      refine ⟨List.mem_cons_self _ _, List.mem_cons_of_mem _ hb, ?_⟩
      intro hab
      have hab' : a = b := hab
      rw [List.nodup_cons] at hnodup
      exact hnodup.1 (hab' ▸ hb)
    · have := ih (List.nodup_cons.mp hnodup).2 p h
      exact ⟨List.mem_cons_of_mem _ this.1, List.mem_cons_of_mem _ this.2.1, this.2.2⟩

/-- C4: for every connected graph (baseline efficiency `E > 0`), given valid
shortest-path oracles, `efficiency_centrality` assigns each node `x` the score
`(E − E_hat(x)) / E`, where `E` averages the pairwise efficiencies `1/d(s,t)`
(hop-count distance, 0 when unreachable) normalized by `n(n−1)`, and
`E_hat(x)` applies the reuse rule: pairs containing x contribute 0, pairs
whose original shortest path avoids x keep the original efficiency — which
equals the efficiency on the subgraph without x — and pairs whose original
shortest path traverses x are recomputed on the subgraph without x
(contributing 0 when no path remains), with the same `n(n−1)` normalization. -/
theorem efficiency_centrality_spec (g : Graph)
    (sp : ℕ → ℕ → List ℕ) (spSub : ℕ → ℕ → ℕ → List ℕ)
    (hnodup : g.nodes.Nodup) (hsp : SpValid g sp) (hspsub : SpSubValid g spSub)
    (hE : 0 < baselineEfficiency g) :
    efficiency_centrality g sp spSub
      = g.nodes.map (fun x =>
          (x, (baselineEfficiency g - removedEfficiency g x) / baselineEfficiency g)) := by
  have hbase : ((pairsList g.nodes).map (fun p => efficiencyBase sp p.1 p.2)).sum
      = ((pairsList g.nodes).map (fun p => effSpec g p.1 p.2)).sum := by
    congr 1
    apply List.map_congr_left
    intro p hp
    obtain ⟨h1, h2, h3⟩ := pairsList_mem g.nodes hnodup p hp
    exact efficiencyBase_eq_effSpec g sp hsp h1 h2 h3
  unfold efficiency_centrality baselineEfficiency removedEfficiency
  apply List.map_congr_left
  intro x hx
  have hrem : ((pairsList g.nodes).map (fun p => efficiencyRemoved sp spSub x p.1 p.2)).sum
      = ((pairsList g.nodes).map (fun p => effSpecRemoved g x p.1 p.2)).sum := by
    congr 1
    apply List.map_congr_left
    intro p hp
    obtain ⟨h1, h2, h3⟩ := pairsList_mem g.nodes hnodup p hp
    exact efficiencyRemoved_eq_effSpecRemoved g sp spSub hsp hspsub hx h1 h2 h3
  rw [hbase, hrem]

/-- The path graph 0 — 1 — 2. -/
def pathGraph3 : Graph where
  nodes := [0, 1, 2]
  edges := [(0, 1), (1, 2)]
  adj := fun a b => ((a, b) ∈ ([(0, 1), (1, 0), (1, 2), (2, 1)] : List (ℕ × ℕ)) : Bool)

/-- A concrete all-pairs shortest-path oracle for `pathGraph3`. -/
def pathSp : ℕ → ℕ → List ℕ := fun s t =>
  if s = 0 ∧ t = 1 then [0, 1]
  else if s = 1 ∧ t = 0 then [1, 0]
  else if s = 0 ∧ t = 2 then [0, 1, 2]
  else if s = 2 ∧ t = 0 then [2, 1, 0]
  else if s = 1 ∧ t = 2 then [1, 2]
  else if s = 2 ∧ t = 1 then [2, 1]
  else []

/-- A concrete subgraph shortest-path oracle for `pathGraph3`. -/
def pathSpSub : ℕ → ℕ → ℕ → List ℕ := fun x s t =>
  if x = 0 ∧ s = 1 ∧ t = 2 then [1, 2]
  else if x = 0 ∧ s = 2 ∧ t = 1 then [2, 1]
  else if x = 2 ∧ s = 0 ∧ t = 1 then [0, 1]
  else if x = 2 ∧ s = 1 ∧ t = 0 then [1, 0]
  else []

theorem pathGraph3_baseline_pos : 0 < baselineEfficiency pathGraph3 := by
  have h01 : dist pathGraph3 0 1 = some 1 := by decide
  have h02 : dist pathGraph3 0 2 = some 2 := by decide
  have h12 : dist pathGraph3 1 2 = some 1 := by decide
  have hp : pairsList pathGraph3.nodes = [(0, 1), (0, 2), (1, 2)] := by decide
  unfold baselineEfficiency
  rw [hp]
  simp only [List.map_cons, List.map_nil, List.sum_cons, List.sum_nil, effSpec,
    h01, h02, h12]
  norm_num [pathGraph3]

theorem efficiency_centrality_spec_witness :
    efficiency_centrality pathGraph3 pathSp pathSpSub
      = pathGraph3.nodes.map (fun x =>
          (x, (baselineEfficiency pathGraph3 - removedEfficiency pathGraph3 x)
            / baselineEfficiency pathGraph3)) :=
  efficiency_centrality_spec pathGraph3 pathSp pathSpSub
    (by decide) (by decide) (by decide) pathGraph3_baseline_pos

end Nneslib
